import Mathlib

/-!
Verification of the FreakOTP core (token.py, secret.py, sql.py) against its
natural-language specification.

Bytes are modelled as `List Nat` with every element `< 256`; machine words are
`Nat` reduced modulo `2 ^ 32` (or `2 ^ 64`) exactly where the source overflows.
Fallible Python code (code that may raise) is modelled with `Option`/`Except`.
-/

set_option maxRecDepth 100000
set_option maxHeartbeats 4000000

namespace FreakOTP

/-- Word modulus for 32-bit arithmetic. -/
def M32 : Nat := 4294967296

/-- Word modulus for 64-bit arithmetic. -/
def M64 : Nat := 18446744073709551616

/-- Big-endian byte list (length `k`) of a natural number. -/
def bytesBE : Nat → Nat → List Nat
  | 0, _ => []
  | k + 1, n => bytesBE k (n / 256) ++ [n % 256]

/-- Little-endian byte list (length `k`) of a natural number. -/
def bytesLE : Nat → Nat → List Nat
  | 0, _ => []
  | k + 1, n => n % 256 :: bytesLE k (n / 256)

/-- Big-endian value of a byte list. -/
def fromBytesBE (l : List Nat) : Nat :=
  l.foldl (fun a b => a * 256 + b) 0

/-- Split a list into chunks of `k` elements; `fuel` bounds the recursion and is
instantiated with the list length. -/
def chunksOf (k : Nat) : Nat → List Nat → List (List Nat)
  | 0, _ => []
  | _, [] => []
  | f + 1, l => l.take k :: chunksOf k f (l.drop k)

/-- Left rotation of a 32-bit word. -/
def rotl32 (s w : Nat) : Nat :=
  (w * 2 ^ s) % M32 + w / 2 ^ (32 - s)

/-- Group a byte list into big-endian 32-bit words. -/
def wordsBE : List Nat → List Nat
  | a :: b :: c :: d :: rest => (((a * 256 + b) * 256 + c) * 256 + d) :: wordsBE rest
  | _ => []

/-- Merkle–Damgård padding shared by MD5/SHA-1/SHA-256: append `0x80`, zero
bytes up to 56 mod 64, then the 8-byte bit length (big-endian when `be`). -/
def mdPad (be : Bool) (msg : List Nat) : List Nat :=
  let len := msg.length
  let z := (64 + 55 - len % 64) % 64
  msg ++ 128 :: List.replicate z 0 ++
    (if be then bytesBE 8 (8 * len) else bytesLE 8 (8 * len))

/-- SHA-1 round function. -/
def sha1f (t b c d : Nat) : Nat :=
  if t < 20 then (b &&& c) ||| ((b ^^^ (M32 - 1)) &&& d)
  else if t < 40 then b ^^^ c ^^^ d
  else if t < 60 then (b &&& c) ||| (b &&& d) ||| (c &&& d)
  else b ^^^ c ^^^ d

/-- SHA-1 round constants. -/
def sha1k (t : Nat) : Nat :=
  if t < 20 then 0x5A827999
  else if t < 40 then 0x6ED9EBA1
  else if t < 60 then 0x8F1BBCDC
  else 0xCA62C1D6

/-- Extend the 16 message words to the 80-word SHA-1 schedule (`n` more words). -/
def sha1schedule : Nat → List Nat → List Nat
  | 0, w => w
  | n + 1, w =>
    let i := w.length
    let t := rotl32 1 ((w.getD (i - 3) 0) ^^^ (w.getD (i - 8) 0) ^^^
      (w.getD (i - 14) 0) ^^^ (w.getD (i - 16) 0))
    sha1schedule n (w ++ [t])

/-- SHA-1 rounds over the message schedule. -/
def sha1rounds : List Nat → Nat → Nat × Nat × Nat × Nat × Nat → Nat × Nat × Nat × Nat × Nat
  | [], _, st => st
  | wt :: w, t, (a, b, c, d, e) =>
    let tmp := (rotl32 5 a + sha1f t b c d + e + sha1k t + wt) % M32
    sha1rounds w (t + 1) (tmp, a, rotl32 30 b, c, d)

/-- One SHA-1 compression step on a 64-byte block. -/
def sha1compress (h : Nat × Nat × Nat × Nat × Nat) (block : List Nat) :
    Nat × Nat × Nat × Nat × Nat :=
  let w := sha1schedule 64 (wordsBE block)
  let (a, b, c, d, e) := sha1rounds w 0 h
  ((h.1 + a) % M32, (h.2.1 + b) % M32, (h.2.2.1 + c) % M32,
    (h.2.2.2.1 + d) % M32, (h.2.2.2.2 + e) % M32)

/-- SHA-1 digest of a byte list. -/
def sha1 (msg : List Nat) : List Nat :=
  let p := mdPad true msg
  let blocks := chunksOf 64 p.length p
  let (h0, h1, h2, h3, h4) :=
    blocks.foldl sha1compress (0x67452301, 0xEFCDAB89, 0x98BADCFE, 0x10325476, 0xC3D2E1F0)
  bytesBE 4 h0 ++ bytesBE 4 h1 ++ bytesBE 4 h2 ++ bytesBE 4 h3 ++ bytesBE 4 h4

/-- Right rotation of a 32-bit word. -/
def rotr32 (s w : Nat) : Nat :=
  w / 2 ^ s + (w % 2 ^ s) * 2 ^ (32 - s)

/-- Right rotation of a 64-bit word. -/
def rotr64 (s w : Nat) : Nat :=
  w / 2 ^ s + (w % 2 ^ s) * 2 ^ (64 - s)

/-- Binary search for the integer cube root (largest `x` with `x ^ 3 ≤ n`),
fuel-bounded. -/
def icbrtAux (n : Nat) : Nat → Nat → Nat → Nat
  | 0, lo, _ => lo
  | f + 1, lo, hi =>
    if hi ≤ lo + 1 then lo
    else
      let m := (lo + hi) / 2
      if m ^ 3 ≤ n then icbrtAux n f m hi else icbrtAux n f lo m

/-- Integer cube root. -/
def icbrt (n : Nat) : Nat := icbrtAux n 300 0 (n + 1)

/-- The first `k` primes (all primes needed by SHA-2 are below 410). -/
def firstPrimes (k : Nat) : List Nat :=
  (((List.range 410).filter fun n => decide (Nat.Prime n)).take k)

/-- High `w` bits of the fractional part of the square root of `p`. -/
def fracSqrt (w p : Nat) : Nat := Nat.sqrt (p * 2 ^ (2 * w)) % 2 ^ w

/-- High `w` bits of the fractional part of the cube root of `p`. -/
def fracCbrt (w p : Nat) : Nat := icbrt (p * 2 ^ (3 * w)) % 2 ^ w

/-- SHA-256 initial state. -/
def sha256init : List Nat := (firstPrimes 8).map (fracSqrt 32)

/-- SHA-256 round constants. -/
def sha256kTable : List Nat := (firstPrimes 64).map (fracCbrt 32)

/-- SHA-512 initial state. -/
def sha512init : List Nat := (firstPrimes 8).map (fracSqrt 64)

/-- SHA-512 round constants. -/
def sha512kTable : List Nat := (firstPrimes 80).map (fracCbrt 64)

/-- Extend the 16 message words to the 64-word SHA-256 schedule. -/
def sha256schedule : Nat → List Nat → List Nat
  | 0, w => w
  | n + 1, w =>
    let i := w.length
    let a := w.getD (i - 15) 0
    let b := w.getD (i - 2) 0
    let s0 := rotr32 7 a ^^^ rotr32 18 a ^^^ a / 2 ^ 3
    let s1 := rotr32 17 b ^^^ rotr32 19 b ^^^ b / 2 ^ 10
    sha256schedule n (w ++ [(w.getD (i - 16) 0 + s0 + w.getD (i - 7) 0 + s1) % M32])

/-- SHA-256 rounds over the zipped (constant, schedule word) list. -/
def sha256rounds : List (Nat × Nat) → List Nat → List Nat
  | [], st => st
  | (kt, wt) :: rest, [a, b, c, d, e, f, g, h] =>
    let S1 := rotr32 6 e ^^^ rotr32 11 e ^^^ rotr32 25 e
    let ch := (e &&& f) ^^^ ((e ^^^ (M32 - 1)) &&& g)
    let t1 := (h + S1 + ch + kt + wt) % M32
    let S0 := rotr32 2 a ^^^ rotr32 13 a ^^^ rotr32 22 a
    let mj := (a &&& b) ^^^ (a &&& c) ^^^ (b &&& c)
    let t2 := (S0 + mj) % M32
    sha256rounds rest [(t1 + t2) % M32, a, b, c, (d + t1) % M32, e, f, g]
  | _, st => st

/-- One SHA-256 compression step on a 64-byte block. -/
def sha256compress (h : List Nat) (block : List Nat) : List Nat :=
  let w := sha256schedule 48 (wordsBE block)
  let st := sha256rounds (sha256kTable.zip w) h
  (h.zip st).map fun p => (p.1 + p.2) % M32

/-- SHA-256 digest of a byte list. -/
def sha256 (msg : List Nat) : List Nat :=
  let p := mdPad true msg
  let blocks := chunksOf 64 p.length p
  (blocks.foldl sha256compress sha256init).flatMap (bytesBE 4)

/-- Group a byte list into big-endian 64-bit words. -/
def words64BE : List Nat → List Nat
  | a :: b :: c :: d :: e :: f :: g :: h :: rest =>
    fromBytesBE [a, b, c, d, e, f, g, h] :: words64BE rest
  | _ => []

/-- SHA-512 padding: append `0x80`, zeros up to 112 mod 128, then the 16-byte
big-endian bit length. -/
def sha512pad (msg : List Nat) : List Nat :=
  let len := msg.length
  let z := (128 + 111 - len % 128) % 128
  msg ++ 128 :: List.replicate z 0 ++ bytesBE 16 (8 * len)

/-- Extend the 16 message words to the 80-word SHA-512 schedule. -/
def sha512schedule : Nat → List Nat → List Nat
  | 0, w => w
  | n + 1, w =>
    let i := w.length
    let a := w.getD (i - 15) 0
    let b := w.getD (i - 2) 0
    let s0 := rotr64 1 a ^^^ rotr64 8 a ^^^ a / 2 ^ 7
    let s1 := rotr64 19 b ^^^ rotr64 61 b ^^^ b / 2 ^ 6
    sha512schedule n (w ++ [(w.getD (i - 16) 0 + s0 + w.getD (i - 7) 0 + s1) % M64])

/-- SHA-512 rounds over the zipped (constant, schedule word) list. -/
def sha512rounds : List (Nat × Nat) → List Nat → List Nat
  | [], st => st
  | (kt, wt) :: rest, [a, b, c, d, e, f, g, h] =>
    let S1 := rotr64 14 e ^^^ rotr64 18 e ^^^ rotr64 41 e
    let ch := (e &&& f) ^^^ ((e ^^^ (M64 - 1)) &&& g)
    let t1 := (h + S1 + ch + kt + wt) % M64
    let S0 := rotr64 28 a ^^^ rotr64 34 a ^^^ rotr64 39 a
    let mj := (a &&& b) ^^^ (a &&& c) ^^^ (b &&& c)
    let t2 := (S0 + mj) % M64
    sha512rounds rest [(t1 + t2) % M64, a, b, c, (d + t1) % M64, e, f, g]
  | _, st => st

/-- One SHA-512 compression step on a 128-byte block. -/
def sha512compress (h : List Nat) (block : List Nat) : List Nat :=
  let w := sha512schedule 64 (words64BE block)
  let st := sha512rounds (sha512kTable.zip w) h
  (h.zip st).map fun p => (p.1 + p.2) % M64

/-- SHA-512 digest of a byte list. -/
def sha512 (msg : List Nat) : List Nat :=
  let p := sha512pad msg
  let blocks := chunksOf 128 p.length p
  (blocks.foldl sha512compress sha512init).flatMap (bytesBE 8)

/-- Fixed-point sine: an integer approximation of `sin x * 2 ^ 64` by the
alternating Taylor series (150 terms, far beyond the needed precision for
arguments up to 64). -/
def sinScaled (x : Nat) : Int :=
  (List.range 150).foldl
    (fun acc k =>
      acc + (if k % 2 = 0 then (1 : Int) else -1) *
        ((x ^ (2 * k + 1) * 2 ^ 64 / Nat.factorial (2 * k + 1) : Nat) : Int))
    0

/-- MD5 round constants: the integer parts of `abs (sin (i + 1)) * 2 ^ 32`. -/
def md5kTable : List Nat :=
  (List.range 64).map fun i => (sinScaled (i + 1)).natAbs / 2 ^ 32

/-- MD5 per-round left-rotation amounts. -/
def md5sTable : List Nat :=
  [7, 12, 17, 22, 7, 12, 17, 22, 7, 12, 17, 22, 7, 12, 17, 22,
   5, 9, 14, 20, 5, 9, 14, 20, 5, 9, 14, 20, 5, 9, 14, 20,
   4, 11, 16, 23, 4, 11, 16, 23, 4, 11, 16, 23, 4, 11, 16, 23,
   6, 10, 15, 21, 6, 10, 15, 21, 6, 10, 15, 21, 6, 10, 15, 21]

/-- Group a byte list into little-endian 32-bit words. -/
def wordsLE : List Nat → List Nat
  | a :: b :: c :: d :: rest => (((d * 256 + c) * 256 + b) * 256 + a) :: wordsLE rest
  | _ => []

/-- MD5 mixing function and message index for round `i`. -/
def md5fg (i b c d : Nat) : Nat × Nat :=
  if i < 16 then ((b &&& c) ||| ((b ^^^ (M32 - 1)) &&& d), i)
  else if i < 32 then ((d &&& b) ||| ((d ^^^ (M32 - 1)) &&& c), (5 * i + 1) % 16)
  else if i < 48 then (b ^^^ c ^^^ d, (3 * i + 5) % 16)
  else (c ^^^ (b ||| (d ^^^ (M32 - 1))), (7 * i) % 16)

/-- One MD5 compression step on a 64-byte block. -/
def md5compress (st : Nat × Nat × Nat × Nat) (block : List Nat) : Nat × Nat × Nat × Nat :=
  let m := wordsLE block
  let (a, b, c, d) :=
    (List.range 64).foldl
      (fun (st : Nat × Nat × Nat × Nat) i =>
        let (a, b, c, d) := st
        let (f, g) := md5fg i b c d
        let r := rotl32 (md5sTable.getD i 0) ((a + f + md5kTable.getD i 0 + m.getD g 0) % M32)
        (d, (b + r) % M32, b, c))
      st
  ((st.1 + a) % M32, (st.2.1 + b) % M32, (st.2.2.1 + c) % M32, (st.2.2.2 + d) % M32)

/-- MD5 digest of a byte list. -/
def md5 (msg : List Nat) : List Nat :=
  let p := mdPad false msg
  let blocks := chunksOf 64 p.length p
  let (a, b, c, d) := blocks.foldl md5compress (0x67452301, 0xefcdab89, 0x98badcfe, 0x10325476)
  bytesLE 4 a ++ bytesLE 4 b ++ bytesLE 4 c ++ bytesLE 4 d

/-- A hash algorithm as used by `hmac.HMAC`: its block size and digest. -/
structure HashAlg where
  block_size : Nat
  digest : List Nat → List Nat

/-- The SHA-1 algorithm record. -/
def sha1Alg : HashAlg := ⟨64, sha1⟩

/-- The SHA-256 algorithm record. -/
def sha256Alg : HashAlg := ⟨64, sha256⟩

/-- The SHA-512 algorithm record. -/
def sha512Alg : HashAlg := ⟨128, sha512⟩

/-- The MD5 algorithm record. -/
def md5Alg : HashAlg := ⟨64, md5⟩

/-- HMAC digest (RFC 2104), as computed by the hmac standard module: keys
longer than the block size are hashed, the key is zero-padded to the block
size, and the inner/outer pads are xored in. -/
def hmacDigest (alg : HashAlg) (key msg : List Nat) : List Nat :=
  let k0 := if key.length > alg.block_size then alg.digest key else key
  let k1 := k0 ++ List.replicate (alg.block_size - k0.length) 0
  alg.digest ((k1.map (· ^^^ 0x5C)) ++ alg.digest ((k1.map (· ^^^ 0x36)) ++ msg))

/-- Big-endian base-32 digit list (length `k`) of a natural number. -/
def digits32BE : Nat → Nat → List Nat
  | 0, _ => []
  | k + 1, n => digits32BE k (n / 32) ++ [n % 32]

/-- Value of a big-endian base-32 digit list. -/
def fromDigits32 (l : List Nat) : Nat :=
  l.foldl (fun a d => a * 32 + d) 0

/-- The RFC 4648 base-32 alphabet. -/
def b32alphabet : List Char := "ABCDEFGHIJKLMNOPQRSTUVWXYZ234567".toList

/-- Character of a 5-bit base-32 digit. -/
def b32char (d : Nat) : Char := b32alphabet.getD d 'A'

/-- Digit of a base-32 character; `none` when the character is outside the
alphabet (including the pad character). -/
def b32val (c : Char) : Option Nat :=
  (List.range 32).find? fun d => c = b32char d

/-- Number of data characters in the final base-32 quantum for a final group
of `m` input bytes (1 ≤ m ≤ 4). -/
def b32dataChars (m : Nat) : Nat := [0, 2, 4, 5, 7].getD m 0

/-- Python base64.b32encode: 5-byte groups become 8 characters; the final
partial group is encoded with trailing pad characters. -/
def b32encode : List Nat → List Char
  | [] => []
  | b0 :: b1 :: b2 :: b3 :: b4 :: rest =>
    (digits32BE 8 (fromBytesBE [b0, b1, b2, b3, b4])).map b32char ++ b32encode rest
  | g =>
    let m := g.length
    let n := fromBytesBE (g ++ List.replicate (5 - m) 0)
    ((digits32BE 8 n).take (b32dataChars m)).map b32char ++
      List.replicate (8 - b32dataChars m) '='

/-- Decode full 8-character quanta of base-32 digits; the final short quantum
(its pad characters already stripped) is shifted by the pad amount and
truncated, exactly as base64.b32decode does. `fuel` bounds recursion and is
instantiated with the digit-list length. -/
def b32decodeChunks : Nat → List Nat → Nat → List Nat
  | 0, _, _ => []
  | _, [], _ => []
  | f + 1, ds, padchars =>
    if 8 < ds.length then
      bytesBE 5 (fromDigits32 (ds.take 8)) ++ b32decodeChunks f (ds.drop 8) padchars
    else if ds.length = 8 then bytesBE 5 (fromDigits32 ds)
    else (bytesBE 5 (fromDigits32 ds * 2 ^ (5 * padchars))).take ((43 - 5 * padchars) / 8)

/-- Python base64.b32decode: the length must be a multiple of 8, trailing pad
characters are stripped and must number 0, 1, 3, 4 or 6, every remaining
character must be in the alphabet; `none` models the raised binascii.Error. -/
def b32decode (s : List Char) : Option (List Nat) :=
  if s.length % 8 ≠ 0 then none
  else
    let stripped := (s.reverse.dropWhile (· = '=')).reverse
    let padchars := s.length - stripped.length
    if ¬(padchars = 0 ∨ padchars = 1 ∨ padchars = 3 ∨ padchars = 4 ∨ padchars = 6) then none
    else
      match stripped.mapM b32val with
      | none => none
      | some ds => some (b32decodeChunks ds.length ds padchars)

/-- Proof auxiliary: the data characters of b32encode, before the padding. -/
def b32data : List Nat → List Char
  | [] => []
  | b0 :: b1 :: b2 :: b3 :: b4 :: rest =>
    (digits32BE 8 (fromBytesBE [b0, b1, b2, b3, b4])).map b32char ++ b32data rest
  | g =>
    ((digits32BE 8 (fromBytesBE (g ++ List.replicate (5 - g.length) 0))).take
      (b32dataChars g.length)).map b32char

/-- Proof auxiliary: the base-32 digit values of the data characters of
b32encode. -/
def b32digits : List Nat → List Nat
  | [] => []
  | b0 :: b1 :: b2 :: b3 :: b4 :: rest =>
    digits32BE 8 (fromBytesBE [b0, b1, b2, b3, b4]) ++ b32digits rest
  | g =>
    (digits32BE 8 (fromBytesBE (g ++ List.replicate (5 - g.length) 0))).take
      (b32dataChars g.length)

/-- Proof auxiliary: the number of trailing pad characters of b32encode. -/
def b32padcount : List Nat → Nat
  | [] => 0
  | _ :: _ :: _ :: _ :: _ :: rest => b32padcount rest
  | g => 8 - b32dataChars g.length

/-- Lower-case hexadecimal digit characters. -/
def hexChar (d : Nat) : Char := "0123456789abcdef".toList.getD d '0'

/-- Value of a hexadecimal digit character (either case); `none` when not a
hex digit. -/
def hexVal (c : Char) : Option Nat :=
  (List.range 16).find? fun d =>
    c = hexChar d ∨ c = "0123456789ABCDEF".toList.getD d '0'

/-- Python bytes.fromhex: pairs of hex digits, spaces between pairs skipped;
`none` models the raised ValueError. -/
def pyFromHex : List Char → Option (List Nat)
  | [] => some []
  | c1 :: rest =>
    if c1 = ' ' then pyFromHex rest
    else
      match rest with
      | [] => none
      | c2 :: rest2 =>
        match hexVal c1, hexVal c2, pyFromHex rest2 with
        | some d1, some d2, some bs => some ((d1 * 16 + d2) :: bs)
        | _, _, _ => none

/-- ASCII model of Python str.upper (all strings reaching it here are ASCII). -/
def pyUpper (s : String) : String := String.mk (s.toList.map Char.toUpper)

/-- ASCII model of Python str.lower. -/
def pyLower (s : String) : String := String.mk (s.toList.map Char.toLower)

namespace Secret

/-- Secret.from_int_list: each value taken modulo 256 (Python `(x + 256) % 256`
with the non-negative Python remainder). -/
def from_int_list (l : List Int) : List Nat :=
  l.map fun x => ((x + 256) % 256).toNat

/-- Secret.to_int_list. -/
def to_int_list (s : List Nat) : List Int :=
  s.map Int.ofNat

/-- Secret.from_base32: strip spaces, upper-case, pad with `=` to a multiple
of 8 characters, then b32decode. -/
def from_base32 (s : String) : Option (List Nat) :=
  let t := (pyUpper (String.mk (s.toList.filter (· ≠ ' ')))).toList
  let t := if t.length % 8 = 0 then t else t ++ List.replicate (8 - t.length % 8) '='
  b32decode t

/-- Secret.to_base32. -/
def to_base32 (s : List Nat) : String := String.mk (b32encode s)

/-- Secret.from_hex. -/
def from_hex (s : String) : Option (List Nat) := pyFromHex s.toList

/-- Secret.to_hex. -/
def to_hex (s : List Nat) : String :=
  String.mk (s.flatMap fun b => [hexChar (b / 16), hexChar (b % 16)])

end Secret

/-- UTF-8 bytes of a character. -/
def utf8Bytes (c : Char) : List Nat :=
  let n := c.toNat
  if n < 0x80 then [n]
  else if n < 0x800 then [0xC0 + n / 64, 0x80 + n % 64]
  else if n < 0x10000 then [0xE0 + n / 4096, 0x80 + n / 64 % 64, 0x80 + n % 64]
  else [0xF0 + n / 262144, 0x80 + n / 4096 % 64, 0x80 + n / 64 % 64, 0x80 + n % 64]

/-- Decode a UTF-8 byte list, substituting U+FFFD for invalid sequences, as
Python does with errors equal to replace; `fuel` bounds the recursion and is
instantiated with the byte-list length. -/
def utf8DecodeReplaceF : Nat → List Nat → List Char
  | 0, _ => []
  | _, [] => []
  | f + 1, b :: rest =>
    if b < 0x80 then Char.ofNat b :: utf8DecodeReplaceF f rest
    else if 0xC2 ≤ b ∧ b < 0xE0 then
      match rest with
      | b1 :: rest1 =>
        if 0x80 ≤ b1 ∧ b1 < 0xC0 then
          Char.ofNat ((b - 0xC0) * 64 + (b1 - 0x80)) :: utf8DecodeReplaceF f rest1
        else Char.ofNat 0xFFFD :: utf8DecodeReplaceF f rest
      | [] => [Char.ofNat 0xFFFD]
    else if 0xE0 ≤ b ∧ b < 0xF0 then
      match rest with
      | b1 :: b2 :: rest2 =>
        if 0x80 ≤ b1 ∧ b1 < 0xC0 ∧ 0x80 ≤ b2 ∧ b2 < 0xC0 ∧
            0x800 ≤ (b - 0xE0) * 4096 + (b1 - 0x80) * 64 + (b2 - 0x80) ∧
            ¬(0xD800 ≤ (b - 0xE0) * 4096 + (b1 - 0x80) * 64 + (b2 - 0x80) ∧
              (b - 0xE0) * 4096 + (b1 - 0x80) * 64 + (b2 - 0x80) < 0xE000) then
          Char.ofNat ((b - 0xE0) * 4096 + (b1 - 0x80) * 64 + (b2 - 0x80)) ::
            utf8DecodeReplaceF f rest2
        else Char.ofNat 0xFFFD :: utf8DecodeReplaceF f rest
      | _ => Char.ofNat 0xFFFD :: utf8DecodeReplaceF f rest
    else if 0xF0 ≤ b ∧ b < 0xF5 then
      match rest with
      | b1 :: b2 :: b3 :: rest3 =>
        if 0x80 ≤ b1 ∧ b1 < 0xC0 ∧ 0x80 ≤ b2 ∧ b2 < 0xC0 ∧ 0x80 ≤ b3 ∧ b3 < 0xC0 ∧
            0x10000 ≤ (b - 0xF0) * 262144 + (b1 - 0x80) * 4096 + (b2 - 0x80) * 64 + (b3 - 0x80) ∧
            (b - 0xF0) * 262144 + (b1 - 0x80) * 4096 + (b2 - 0x80) * 64 + (b3 - 0x80) < 0x110000 then
          Char.ofNat ((b - 0xF0) * 262144 + (b1 - 0x80) * 4096 + (b2 - 0x80) * 64 + (b3 - 0x80)) ::
            utf8DecodeReplaceF f rest3
        else Char.ofNat 0xFFFD :: utf8DecodeReplaceF f rest
      | _ => Char.ofNat 0xFFFD :: utf8DecodeReplaceF f rest
    else Char.ofNat 0xFFFD :: utf8DecodeReplaceF f rest

/-- Decode a UTF-8 byte list with replacement of invalid sequences. -/
def utf8DecodeReplace (l : List Nat) : List Char :=
  utf8DecodeReplaceF l.length l

/-- Characters never percent-encoded by urllib.parse.quote. -/
def urlAlwaysSafe (c : Char) : Bool :=
  c.isAlpha && c.toNat < 128 || c.isDigit || c = '_' || c = '.' || c = '-' || c = '~'

/-- urllib.parse.quote_plus with an empty safe set, as used by urlencode:
space becomes plus, unreserved characters pass through, everything else is
percent-encoded from its UTF-8 bytes with upper-case hex. -/
def quotePlus (s : String) : String :=
  String.mk <| s.toList.flatMap fun c =>
    if c = ' ' then ['+']
    else if urlAlwaysSafe c then [c]
    else (utf8Bytes c).flatMap fun b =>
      ['%', "0123456789ABCDEF".toList.getD (b / 16) '0',
        "0123456789ABCDEF".toList.getD (b % 16) '0']

/-- Percent-decode to bytes: a percent sign followed by two hex digits becomes
that byte, anything else passes through as its UTF-8 bytes (Python leaves
malformed escapes untouched). -/
def pctBytes : List Char → List Nat
  | [] => []
  | '%' :: c1 :: c2 :: rest =>
    match hexVal c1, hexVal c2 with
    | some d1, some d2 => (d1 * 16 + d2) :: pctBytes rest
    | _, _ => utf8Bytes '%' ++ pctBytes (c1 :: c2 :: rest)
  | c :: rest => utf8Bytes c ++ pctBytes rest

/-- urllib.parse.unquote (UTF-8, errors replace). -/
def unquote (s : String) : String :=
  String.mk (utf8DecodeReplace (pctBytes s.toList))

/-- urllib.parse.urlencode: ampersand-joined quoted key equals value pairs. -/
def urlencode (data : List (String × String)) : String :=
  "&".intercalate (data.map fun p => quotePlus p.1 ++ "=" ++ quotePlus p.2)

/-- Split a list at the first occurrence of `c`: `none` when absent. -/
def splitOnceChar (c : Char) : List Char → Option (List Char × List Char)
  | [] => none
  | x :: rest =>
    if x = c then some ([], rest)
    else match splitOnceChar c rest with
      | some (a, b) => some (x :: a, b)
      | none => none

/-- urllib.parse.parse_qsl with default options: split the query on ampersand,
skip empty fields and fields without an equals sign or with an empty value,
replace plus by space and percent-decode names and values. -/
def parse_qsl (qs : String) : List (String × String) :=
  (qs.toList.splitOn '&').foldr
    (fun field acc =>
      match splitOnceChar '=' field with
      | none => acc
      | some (n, v) =>
        if v = [] then acc
        else (unquote (String.mk (n.map fun c => if c = '+' then ' ' else c)),
              unquote (String.mk (v.map fun c => if c = '+' then ' ' else c))) :: acc)
    []

/-- Lookup in the dict built from the pairs by insertion order: the last
binding of a key wins, exactly as Python dict(parse_qsl(...)). -/
def dictGet (l : List (String × String)) (k : String) : Option String :=
  (l.reverse.find? fun p => p.1 = k).map fun p => p.2

/-- The components produced by urllib.parse.urlsplit. -/
structure UrlParts where
  scheme : String
  netloc : String
  path : String
  query : String
  fragment : String
deriving Repr, DecidableEq

/-- Characters allowed after the first one in a URI scheme. -/
def schemeChar (c : Char) : Bool :=
  c.isAlpha && c.toNat < 128 || c.isDigit || c = '+' || c = '-' || c = '.'

/-- urllib.parse.urlsplit: strip a scheme prefix, take the netloc after a
double slash up to a slash, question mark or hash, split off the fragment and
the query; the error models the ValueError for unbalanced netloc brackets. -/
def urlsplit (url : String) : Except String UrlParts :=
  let l := url.toList
  let (scheme, rest) :=
    match splitOnceChar ':' l with
    | some (before, after) =>
      if before ≠ [] ∧ (before.headD ' ').isAlpha ∧ (before.headD ' ').toNat < 128 ∧
          before.all schemeChar then
        (String.mk (before.map Char.toLower), after)
      else ("", l)
    | none => ("", l)
  let (netloc, rest) :=
    match rest with
    | '/' :: '/' :: tail =>
      let n := tail.takeWhile fun c => c ≠ '/' ∧ c ≠ '?' ∧ c ≠ '#'
      (n, tail.drop n.length)
    | _ => ([], rest)
  if ('[' ∈ netloc ∧ ']' ∉ netloc) ∨ (']' ∈ netloc ∧ '[' ∉ netloc) then
    .error "Invalid IPv6 URL"
  else
    let (rest, fragment) := (splitOnceChar '#' rest).getD (rest, [])
    let (path, query) := (splitOnceChar '?' rest).getD (rest, [])
    .ok ⟨scheme, String.mk netloc, String.mk path, String.mk query, String.mk fragment⟩

/-- urllib.parse.urlunparse restricted to empty params and fragment, as called
by to_uri. -/
def urlunparse (scheme netloc path query : String) : String :=
  let url :=
    if netloc ≠ "" ∨ path.toList.take 2 = ['/', '/'] then
      "//" ++ netloc ++ (if path ≠ "" ∧ path.toList.take 1 ≠ ['/'] then "/" ++ path else path)
    else path
  let url := if scheme ≠ "" then scheme ++ ":" ++ url else url
  if query ≠ "" then url ++ "?" ++ query else url

/-- Python int(str): optional surrounding whitespace, an optional sign and
decimal digits. (Underscore separators and non-ASCII digits, which Python also
accepts, are not modelled; no input here contains them.) -/
def pyInt (s : String) : Option Int :=
  let t := (s.toList.dropWhile Char.isWhitespace).reverse.dropWhile Char.isWhitespace |>.reverse
  let (sign, digits) : Int × List Char :=
    match t with
    | '-' :: rest => (-1, rest)
    | '+' :: rest => (1, rest)
    | _ => (1, t)
  if digits = [] ∨ ¬digits.all Char.isDigit then none
  else some (sign * (digits.foldl (fun a c => a * 10 + (c.toNat - 48)) 0 : Nat))

/-- Python str.strip for the slash character. -/
def stripSlashes (s : String) : String :=
  String.mk ((s.toList.dropWhile (· = '/')).reverse.dropWhile (· = '/') |>.reverse)

/-- ASCII model of Python str.strip with no argument. -/
def pyStrip (s : String) : String :=
  String.mk ((s.toList.dropWhile Char.isWhitespace).reverse.dropWhile Char.isWhitespace |>.reverse)

/-- Token types. -/
inductive TokenType
  | TOTP
  | HOTP
  | SECURID
deriving Repr, DecidableEq

/-- The value of a TokenType member. -/
def TokenType.value : TokenType → String
  | .TOTP => "TOTP"
  | .HOTP => "HOTP"
  | .SECURID => "SecurID"

/-- TokenType[name.upper()]: the member whose name matches the upper-cased
string, `none` modelling the KeyError. -/
def tokenTypeFromName (s : String) : Option TokenType :=
  let u := pyUpper s
  if u = "TOTP" then some .TOTP
  else if u = "HOTP" then some .HOTP
  else if u = "SECURID" then some .SECURID
  else none

/-- Default token parameters. -/
def DEFAULT_PERIOD : Int := 30

/-- Default HMAC hash name. -/
def DEFAULT_ALGORITHM : String := "SHA1"

/-- Default code length. -/
def DEFAULT_DIGITS : Int := 6

/-- The ALGORITHMS dictionary mapping hash names to hash implementations. -/
def ALGORITHMS : List (String × HashAlg) :=
  [("SHA1", sha1Alg), ("SHA256", sha256Alg), ("SHA512", sha512Alg), ("MD5", md5Alg)]

/-- A token: the fields of the Token class, with constructor defaults.
Counters and sizes are Python ints, modelled as `Int`; the secret is the
byte list owned by the Secret. -/
structure Token where
  rowid : Option Int := none
  type : TokenType := .TOTP
  algorithm : String := DEFAULT_ALGORITHM
  counter : Option Int := none
  digits : Int := DEFAULT_DIGITS
  issuer_int : Option String := none
  issuer_ext : Option String := none
  issuer : Option String := none
  label : Option String := none
  period : Int := DEFAULT_PERIOD
  exp_date : Option String := none
  pin : Option String := none
  serial : Option String := none
  secret : List Nat := []
deriving Repr, DecidableEq

/-- Python falsy-or on optional strings: an absent or empty string falls back. -/
def orElseStr (v : Option String) (d : Option String) : Option String :=
  match v with
  | some s => if s = "" then d else some s
  | none => d

/-- Python falsy-or between an optional string and a string default. -/
def orDefaultStr (v : Option String) (d : String) : String :=
  match v with
  | some s => if s = "" then d else s
  | none => d

/-- Python falsy-or between an optional int and an int default. -/
def orDefaultInt (v : Option Int) (d : Int) : Int :=
  match v with
  | some n => if n = 0 then d else n
  | none => d

/-- Zero-pad a decimal rendering on the left to `width` characters, as the
format string built by calculate does. -/
def zeroPad (width : Nat) (s : String) : String :=
  String.mk (List.replicate (width - s.length) '0') ++ s

/-- struct.pack of a signed 64-bit big-endian value: `none` models the raised
struct.error when out of range; otherwise the 8 two's-complement bytes. -/
def packInt64BE (v : Int) : Option (List Nat) :=
  if v < -(2 ^ 63) ∨ (2 ^ 63 : Int) ≤ v then none
  else some (bytesBE 8 (v.emod (2 ^ 64)).toNat)

/-- Token.calculate. The ambient clock (`time.time()` truncated to an int) is
the explicit argument `now`; the external SecurID library call is the
injected capability `securidExt` (`none` when it raises, which the source
catches). `timestamp` and `counter` are the optional Python arguments, a
timestamp given as a datetime being identified with its integer epoch
seconds. `none` as result models an uncaught exception. The float detour
`int(math.pow(10, digits))` is modelled exactly for the digit counts a double
represents exactly (digits less than 23, amply covering real tokens), and as 0
for negative digits. -/
def Token.calculate (tok : Token) (now : Int) (securidExt : Option String)
    (timestamp : Option Int) (counter : Option Int) : Option String :=
  if tok.type = .SECURID then
    some (securidExt.getD "??????")
  else
    let alg := (ALGORITHMS.lookup tok.algorithm).getD sha1Alg
    let value : Option Int :=
      if tok.type = .HOTP then
        match counter with
        | some n => some n
        | none => tok.counter
      else
        match timestamp with
        | some ts => if tok.period = 0 then none else some (Int.fdiv ts tok.period)
        | none => if tok.period = 0 then none else some (Int.tdiv now tok.period)
    match value with
    | none => none
    | some v =>
      match packInt64BE v with
      | none => none
      | some msg =>
        let dig := hmacDigest alg tok.secret msg
        let offset := dig.getD (dig.length - 1) 0 &&& 0x0F
        let code := fromBytesBE ((dig.drop offset).take 4)
        let p : Nat := if tok.digits < 0 then 0 else 10 ^ tok.digits.toNat
        if p = 0 then none
        else some (zeroPad tok.digits.toNat (toString ((code &&& 0x7FFFFFFF) % p)))

/-- Token.time_left. `for_time` is the optional argument (a datetime again
identified with its epoch seconds), `now` the ambient clock used when it is
absent, and `securidTL` the injected external SecurID capability (`none` when
the import or the external call raises, which the source catches). `.error`
models an uncaught exception, `.ok none` the Python None result. -/
def Token.time_left (tok : Token) (now : Int) (securidTL : Option (Option Int))
    (for_time : Option Int) : Except String (Option Int) :=
  if tok.type = .SECURID then
    match securidTL with
    | none => .ok none
    | some r => .ok r
  else if tok.type = .TOTP then
    let t := for_time.getD now
    if t < -62135596800 ∨ 253402300799 < t then .error "timestamp out of range"
    else if tok.period = 0 then .error "ZeroDivisionError"
    else
      let result := (tok.period - t.fmod 60).fmod tok.period
      .ok (some (if result = 0 then tok.period else result))
  else .ok none

/-- A dict value for the secret key, which holds a Base32 string in database
records and an integer list in backup records. -/
inductive SecretVal
  | b32 (s : String)
  | ints (l : List Int)
deriving Repr, DecidableEq

/-- A token record: the JSON/dict mapping passed to Token as data, produced by
to_dict, stored as a database row image, or read from a backup file. `none`
models an absent key (data.get returns None for absent and null alike, and no
consumer distinguishes them). -/
structure TokenRecord where
  rowid : Option Int := none
  type : Option String := none
  algo : Option String := none
  algorithm : Option String := none
  counter : Option Int := none
  digits : Option Int := none
  issuer_int : Option String := none
  issuer_ext : Option String := none
  issuerInt : Option String := none
  issuerExt : Option String := none
  issuer : Option String := none
  label : Option String := none
  period : Option Int := none
  exp_date : Option String := none
  pin : Option String := none
  serial : Option String := none
  secret : Option SecretVal := none
deriving Repr, DecidableEq

/-- Token._parse_data on a record, as reached through Token(data=...) whose
field initialisation ran with the constructor defaults. Note the source
assigns the parsed exp_date value to the attribute exp_data, so the exp_date
field keeps its initial None. -/
def Token.parse_data (r : TokenRecord) : Except String Token :=
  match r.type with
  | none => .error "AttributeError: NoneType has no upper"
  | some tyName =>
    match tokenTypeFromName tyName with
    | none => .error "KeyError: invalid token type"
    | some ty =>
      match r.secret with
      | some (.b32 s) =>
        match Secret.from_base32 s with
        | none => .error "binascii.Error"
        | some sec =>
          .ok { rowid := r.rowid
                type := ty
                algorithm := orDefaultStr r.algo DEFAULT_ALGORITHM
                counter := r.counter
                digits := orDefaultInt r.digits DEFAULT_DIGITS
                issuer_int := orElseStr r.issuer_int r.issuerInt
                issuer_ext := orElseStr r.issuer_ext r.issuerExt
                issuer := orElseStr (orElseStr r.issuer_int r.issuerInt)
                  (orElseStr r.issuer_ext r.issuerExt)
                label := r.label
                period := orDefaultInt r.period DEFAULT_PERIOD
                exp_date := none
                pin := r.pin
                serial := r.serial
                secret := sec }
      | some (.ints _) => .error "AttributeError: list has no replace"
      | none => .error "KeyError: secret"

/-- Token._parse_uri, as reached through Token(uri=...). Errors are the
uncaught exceptions of the source, except the invalid-token-type message,
which the source raises explicitly. -/
def Token.parse_uri (uri : String) : Except String Token := do
  let c ← urlsplit uri
  let query := parse_qsl c.query
  match tokenTypeFromName c.netloc with
  | none => .error "Error parsing URI, invalid token type"
  | some ty => do
    let algorithm := orDefaultStr (dictGet query "algorithm") DEFAULT_ALGORITHM
    let counter : Int ←
      match dictGet query "counter" with
      | some s => match pyInt s with
        | some n => pure n
        | none => .error "ValueError: invalid literal for int"
      | none => pure 0
    let digits : Int ←
      if (dictGet query "digest").isSome then
        match dictGet query "digits" with
        | some s => match pyInt s with
          | some n => pure n
          | none => .error "ValueError: invalid literal for int"
        | none => .error "TypeError: int of None"
      else pure DEFAULT_DIGITS
    let (issuer, label) :=
      if ':' ∈ c.path.toList then
        match splitOnceChar ':' (stripSlashes c.path).toList with
        | some (a, b) => (some (String.mk a), some (String.mk b))
        | none => (some (stripSlashes c.path), some "")
      else (none, some (stripSlashes c.path))
    let period : Int ←
      match dictGet query "period" with
      | some s => match pyInt s with
        | some n => pure n
        | none => .error "ValueError: invalid literal for int"
      | none => pure DEFAULT_PERIOD
    match dictGet query "secret" with
    | none => .error "AttributeError: NoneType has no replace"
    | some s =>
      match Secret.from_base32 s with
      | none => .error "binascii.Error"
      | some sec =>
        .ok { rowid := none
              type := ty
              algorithm := algorithm
              counter := some counter
              digits := digits
              issuer_int := issuer
              issuer_ext := issuer
              issuer := issuer
              label := label
              period := period
              exp_date := none
              pin := none
              serial := none
              secret := sec }

/-- Token.to_dict with the default INT_LIST secret encoding (the encoding used
by export_json). The secret key maps to the integer list; exp_date, pin and
serial keys are present only when the fields are set, which coincides with
the record field being `none` otherwise. -/
def Token.to_dict (tok : Token) : TokenRecord :=
  { type := some tok.type.value
    algorithm := some tok.algorithm
    counter := tok.counter
    digits := some tok.digits
    issuer := tok.issuer
    label := tok.label
    period := some tok.period
    secret := some (.ints (Secret.to_int_list tok.secret))
    exp_date := tok.exp_date
    pin := tok.pin
    serial := tok.serial }

/-- Token.to_uri. -/
def Token.to_uri (tok : Token) : String :=
  let data : List (String × String) :=
    (if tok.algorithm ≠ "" then [("algorithm", tok.algorithm)] else []) ++
    (if tok.digits ≠ 0 then [("digits", toString tok.digits)] else []) ++
    (if tok.period ≠ 0 ∧ tok.type ≠ .HOTP then [("period", toString tok.period)] else []) ++
    (if tok.type = .HOTP then [("counter", toString (tok.counter.getD 0))] else []) ++
    [("secret", Secret.to_base32 tok.secret)]
  let label := ":".intercalate
    (([tok.issuer, tok.label].filterMap id).filter (· ≠ "") |>.map pyStrip)
  urlunparse "otpauth" (pyLower tok.type.value) label (urlencode data)

/-- A row of the token table (the twelve columns of SQL_CREATE_TOKENS_TABLE,
each nullable). -/
structure Row where
  type : Option String := none
  algo : Option String := none
  counter : Option Int := none
  digits : Option Int := none
  issuer_int : Option String := none
  issuer_ext : Option String := none
  label : Option String := none
  period : Option Int := none
  exp_date : Option String := none
  pin : Option String := none
  serial : Option String := none
  secret : Option String := none
deriving Repr, DecidableEq

/-- The token table in storage order; sqlite assigns rowids in insertion
order, modelled as the position plus one. -/
abbrev TokenDb := List Row

/-- dict(zip(TOKEN_COLUMNS, values)) for a selected row. -/
def rowRecord (rowid : Int) (r : Row) : TokenRecord :=
  { rowid := some rowid
    type := r.type
    algo := r.algo
    counter := r.counter
    digits := r.digits
    issuer_int := r.issuer_int
    issuer_ext := r.issuer_ext
    label := r.label
    period := r.period
    exp_date := r.exp_date
    pin := r.pin
    serial := r.serial
    secret := r.secret.map .b32 }

/-- TokenDb.get_tokens: every row, in storage order, parsed through
Token(data=...). -/
def TokenDb.get_tokens (db : TokenDb) : Except String (List Token) :=
  ((List.range db.length).zip db).mapM fun p =>
    Token.parse_data (rowRecord ((p.1 : Int) + 1) p.2)

/-- TokenDb.insert: the row written for a token. -/
def TokenDb.insert (db : TokenDb) (tok : Token) : TokenDb :=
  db ++ [{ type := some tok.type.value
           algo := some tok.algorithm
           counter := tok.counter
           digits := some tok.digits
           issuer_int := tok.issuer_int
           issuer_ext := tok.issuer_ext
           label := tok.label
           period := some tok.period
           exp_date := tok.exp_date
           pin := tok.pin
           serial := tok.serial
           secret := some (Secret.to_base32 tok.secret) }]

/-- The rows inserted by TokenDb.import_json for the backup records, in
order; an error on any record fails the whole import (the source commits only
after the loop). -/
def importRows : List TokenRecord → Except String (List Row)
  | [] => .ok []
  | r :: rest =>
    match r.secret with
    | some (.ints l) =>
      (importRows rest).map fun rows =>
        { type := r.type
          algo := some (orDefaultStr r.algo DEFAULT_ALGORITHM)
          counter := r.counter
          digits := some (orDefaultInt r.digits DEFAULT_DIGITS)
          issuer_int := r.issuerInt
          issuer_ext := r.issuerExt
          label := r.label
          period := some (orDefaultInt r.period DEFAULT_PERIOD)
          exp_date := r.exp_date
          pin := r.pin
          serial := r.serial
          secret := some (Secret.to_base32 (Secret.from_int_list l)) } :: rows
    | some (.b32 _) => .error "TypeError: cannot add int and str"
    | none => .error "KeyError: secret"

/-- TokenDb.import_json on the token records of a backup file: optionally
clears existing data, inserts each record, returns the new table and the
count. -/
def TokenDb.import_json (db : TokenDb) (records : List TokenRecord)
    (delete_existing_data : Bool) : Except String (TokenDb × Nat) :=
  (importRows records).map fun rows =>
    ((if delete_existing_data then [] else db) ++ rows, rows.length)

/-- TokenDb.export_json: the token records written to the backup file (the
companion tokenOrder index of issuer:label keys is file framing and carries no
token data). Each token dict gets its issuer value duplicated into the legacy
issuerInt/issuerExt keys and the issuer key removed. -/
def TokenDb.export_json (db : TokenDb) : Except String (List TokenRecord) :=
  (TokenDb.get_tokens db).map fun tokens =>
    tokens.map fun t =>
      let d := t.to_dict
      { d with issuerInt := d.issuer, issuerExt := d.issuer, issuer := none }

/-- The RFC 4226 test secret: the 20 bytes with hex encoding
3132333435363738393031323334353637383930. -/
def rfc4226secret : List Nat :=
  (Secret.from_hex "3132333435363738393031323334353637383930").getD []

/-- The RFC 4226 test token: HOTP, SHA1, 6 digits. -/
def rfc4226token : Token :=
  { type := .HOTP, algorithm := "SHA1", digits := 6, counter := some 0,
    secret := rfc4226secret }

/-- A TOTP token with non-default digits, period and algorithm, used as a
concrete analysis input. -/
def sampleDigits8Token : Token :=
  { type := .TOTP, algorithm := "SHA256", digits := 8, period := 60,
    issuer_int := some "ACME", issuer_ext := some "ACME", issuer := some "ACME",
    label := some "alice", secret := [1, 2, 3, 4, 5] }

/-- A database holding one SHA256 token, used as a concrete analysis input. -/
def sampleSha256Db : TokenDb :=
  TokenDb.insert []
    { type := .TOTP, algorithm := "SHA256", digits := 6, period := 30,
      issuer_int := some "ACME", issuer_ext := some "ACME", issuer := some "ACME",
      label := some "alice", secret := [1, 2, 3, 4, 5] }

/-- A persisted SecurID record carrying the SecurID-only fields, used as a
concrete analysis input. -/
def sampleSecuridRecord : TokenRecord :=
  { type := some "SecurID", secret := some (.b32 "AEBAGBAF"),
    exp_date := some "2030-12-31", pin := some "1234", serial := some "SN123" }

/-! ## Theorems -/

theorem rfcVec0 : rfc4226token.calculate 0 none none (some 0) = some "755224" := by decide

theorem rfcVec1 : rfc4226token.calculate 0 none none (some 1) = some "287082" := by decide

theorem rfcVec2 : rfc4226token.calculate 0 none none (some 2) = some "359152" := by decide

theorem rfcVec3 : rfc4226token.calculate 0 none none (some 3) = some "969429" := by decide

theorem rfcVec4 : rfc4226token.calculate 0 none none (some 4) = some "338314" := by decide

theorem rfcVec5 : rfc4226token.calculate 0 none none (some 5) = some "254676" := by decide

theorem rfcVec6 : rfc4226token.calculate 0 none none (some 6) = some "287922" := by decide

theorem rfcVec7 : rfc4226token.calculate 0 none none (some 7) = some "162583" := by decide

theorem rfcVec8 : rfc4226token.calculate 0 none none (some 8) = some "399871" := by decide

theorem rfcVec9 : rfc4226token.calculate 0 none none (some 9) = some "520489" := by decide

/-- C1: for the HOTP token with the 20-byte RFC 4226 secret, SHA1 and 6
digits, calculate with counter override i for i = 0..9 returns exactly the
ten published reference codes. -/
theorem rfc4226_vector_codes :
    rfc4226token.calculate 0 none none (some 0) = some "755224" ∧
    rfc4226token.calculate 0 none none (some 1) = some "287082" ∧
    rfc4226token.calculate 0 none none (some 2) = some "359152" ∧
    rfc4226token.calculate 0 none none (some 3) = some "969429" ∧
    rfc4226token.calculate 0 none none (some 4) = some "338314" ∧
    rfc4226token.calculate 0 none none (some 5) = some "254676" ∧
    rfc4226token.calculate 0 none none (some 6) = some "287922" ∧
    rfc4226token.calculate 0 none none (some 7) = some "162583" ∧
    rfc4226token.calculate 0 none none (some 8) = some "399871" ∧
    rfc4226token.calculate 0 none none (some 9) = some "520489" :=
  ⟨rfcVec0, rfcVec1, rfcVec2, rfcVec3, rfcVec4, rfcVec5, rfcVec6, rfcVec7,
    rfcVec8, rfcVec9⟩

/-- C5: for every HOTP token, calculate with a counter override computes from
the override alone (the stored counter field is irrelevant to the result),
and calculate without an override computes from the stored counter; calculate
is a pure function of the token, so the stored counter is unchanged. -/
theorem hotp_counter_precedence (tok : Token) (now : Int) (se : Option String)
    (ts : Option Int) (n m c : Int) (h : tok.type = .HOTP)
    (hc : tok.counter = some c) :
    ({ tok with counter := some m } : Token).calculate now se ts (some n) =
      tok.calculate now se ts (some n) ∧
    tok.calculate now se ts none = tok.calculate now se ts (some c) := by
  constructor <;> simp [Token.calculate, h, hc]

/-- C5 witness. -/
theorem hotp_counter_precedence_witness :
    ({ rfc4226token with counter := some 5 } : Token).calculate 0 none none (some 1) =
      rfc4226token.calculate 0 none none (some 1) ∧
    rfc4226token.calculate 0 none none none = rfc4226token.calculate 0 none none (some 0) :=
  hotp_counter_precedence rfc4226token 0 none none 1 5 0 rfl rfl

/-- C7 counterexample: the SecurID placeholder is the fixed six-character
string of question marks even when the token expects 8 digits, so its length
does not equal the digit width. -/
theorem securid_placeholder_not_digit_width :
    (({ type := .SECURID, digits := 8 } : Token).calculate 0 none none none).map
      String.length = some 6 ∧ (6 : Nat) ≠ 8 := by
  constructor
  · rfl
  · decide

/-- C7 amended: for every SecurID token, when the external capability raises,
calculate returns the fixed placeholder of six question marks (length 6, the
default digit width) rather than propagating the exception, regardless of the
token digit count. -/
theorem securid_unavailable_placeholder (tok : Token) (now : Int)
    (ts ctr : Option Int) (h : tok.type = .SECURID) :
    tok.calculate now none ts ctr = some "??????" ∧
    (tok.calculate now none ts ctr).map String.length = some 6 := by
  constructor
  · simp [Token.calculate, h, Option.getD]
  · simp [Token.calculate, h, Option.getD]
    decide

/-- C7 witness. -/
theorem securid_unavailable_placeholder_witness :
    ({ type := .SECURID, digits := 8 } : Token).calculate 0 none none none = some "??????" ∧
    (({ type := .SECURID, digits := 8 } : Token).calculate 0 none none none).map
      String.length = some 6 :=
  securid_unavailable_placeholder { type := .SECURID, digits := 8 } 0 none none rfl

/-- C9: parsing a persisted record carrying exp_date, pin and serial yields a
token whose pin and serial match the record, but whose exp_date is None: the
source stores the parsed value into the stray attribute exp_data, so the
exp_date field is dropped on load (and a load-then-store round trip loses
it), contradicting the spec. -/
theorem parse_data_drops_exp_date :
    (Token.parse_data sampleSecuridRecord).map (fun t => (t.exp_date, t.pin, t.serial)) =
      .ok (none, some "1234", some "SN123") ∧
    sampleSecuridRecord.exp_date = some "2030-12-31" := by
  constructor
  · rfl
  · rfl

/-- C10: for every non-SecurID token whose algorithm is none of SHA1, SHA256,
SHA512, MD5, calculate silently falls back to SHA1: the result (including the
error behaviour) is identical to the same token with algorithm SHA1, for
every counter and timestamp. -/
theorem unknown_algorithm_falls_back_sha1 (tok : Token) (now : Int)
    (se : Option String) (ts ctr : Option Int) (h1 : tok.type ≠ .SECURID)
    (h2 : tok.algorithm ≠ "SHA1" ∧ tok.algorithm ≠ "SHA256" ∧
      tok.algorithm ≠ "SHA512" ∧ tok.algorithm ≠ "MD5") :
    tok.calculate now se ts ctr =
      ({ tok with algorithm := "SHA1" } : Token).calculate now se ts ctr := by
  obtain ⟨a1, a2, a3, a4⟩ := h2
  have b1 : (tok.algorithm == "SHA1") = false := beq_eq_false_iff_ne.mpr a1
  have b2 : (tok.algorithm == "SHA256") = false := beq_eq_false_iff_ne.mpr a2
  have b3 : (tok.algorithm == "SHA512") = false := beq_eq_false_iff_ne.mpr a3
  have b4 : (tok.algorithm == "MD5") = false := beq_eq_false_iff_ne.mpr a4
  simp [Token.calculate, h1, ALGORITHMS, List.lookup, b1, b2, b3, b4]

/-- C10 witness. -/
theorem unknown_algorithm_falls_back_sha1_witness :
    ({ type := .TOTP, algorithm := "FOO", secret := [1, 2, 3] } : Token).calculate
        59 none (some 59) none =
      ({ type := .TOTP, algorithm := "SHA1", secret := [1, 2, 3] } : Token).calculate
        59 none (some 59) none :=
  unknown_algorithm_falls_back_sha1
    { type := .TOTP, algorithm := "FOO", secret := [1, 2, 3] } 59 none (some 59) none
    (by decide) (by refine ⟨?_, ?_, ?_, ?_⟩ <;> decide)

/-- C2: the URI round trip loses non-default digit counts. to_uri writes a
digits parameter, but _parse_uri consults the digest key before reading
digits, so a produced URI parses back with the default 6 digits: the claim
fails for the 8-digit token (all other listed fields do round-trip on this
input). -/
theorem uri_round_trip_loses_digits :
    (Token.parse_uri sampleDigits8Token.to_uri).map Token.digits = .ok 6 ∧
    sampleDigits8Token.digits = 8 ∧
    (Token.parse_uri sampleDigits8Token.to_uri).map
        (fun t => (t.type, t.algorithm, t.period, t.issuer, t.label, t.secret)) =
      .ok (sampleDigits8Token.type, sampleDigits8Token.algorithm,
        sampleDigits8Token.period, sampleDigits8Token.issuer,
        sampleDigits8Token.label, sampleDigits8Token.secret) := by
  refine ⟨?_, ?_, ?_⟩ <;> rfl

/-- C3: the export/import round trip loses non-default algorithms. export_json
writes each token dict with the algorithm key, while import_json reads the
legacy algo key and falls back to SHA1, so a SHA256 token comes back as SHA1
(the count and the other listed fields are preserved on this input). -/
theorem export_import_loses_algorithm :
    (do
      let recs ← TokenDb.export_json sampleSha256Db
      let r ← TokenDb.import_json [] recs false
      let toks ← TokenDb.get_tokens r.1
      pure (r.2, toks.map fun t =>
        (t.type, t.algorithm, t.digits, t.period, t.issuer, t.label, t.secret))) =
      Except.ok (1, [(TokenType.TOTP, "SHA1", 6, 30, some "ACME", some "alice",
        [1, 2, 3, 4, 5])]) ∧
    (TokenDb.get_tokens sampleSha256Db).map (fun l => l.map Token.algorithm) =
      .ok ["SHA256"] := by
  constructor
  · rfl
  · rfl

/-- C4 counterexample: a TOTP token with period 45 at timestamp 90, which is
exactly on a period boundary, gets time_left 15, not the full period 45: the
source subtracts the second-of-minute component, not the position inside the
period. -/
theorem time_left_boundary_not_period :
    ({ type := .TOTP, period := 45 } : Token).time_left 0 none (some 90) = .ok (some 15) ∧
    (90 : Int).fmod 45 = 0 ∧ (15 : Int) ≠ 45 := by
  refine ⟨rfl, rfl, by decide⟩

/-- C4 amended: for every TOTP token with positive period and every
representable timestamp, time_left returns (period - second_of_minute) fmod
period with 0 replaced by the full period, hence never 0; it returns the full
period on period boundaries when the period divides 60 (so in particular for
the default period 30); for HOTP tokens, and for SecurID tokens when the
external capability is unavailable, it returns the null not-applicable
result, never the number 0. -/
theorem time_left_behaviour (tok : Token) (now t : Int) (se : Option (Option Int))
    (hp : 0 < tok.period) (ht0 : 0 ≤ t) (ht1 : t ≤ 253402300799) :
    (tok.type = .TOTP →
      tok.time_left now se (some t) =
        .ok (some (if (tok.period - t.fmod 60).fmod tok.period = 0 then tok.period
          else (tok.period - t.fmod 60).fmod tok.period)) ∧
      tok.time_left now se (some t) ≠ .ok (some 0) ∧
      (tok.period ∣ 60 → t.fmod tok.period = 0 →
        tok.time_left now se (some t) = .ok (some tok.period))) ∧
    (tok.type = .HOTP → tok.time_left now se (some t) = .ok none) ∧
    (tok.type = .SECURID → tok.time_left now none (some t) = .ok none) := by
  have hrange : ¬(t < -62135596800 ∨ 253402300799 < t) := by omega
  have hpz : ¬tok.period = 0 := by omega
  refine ⟨fun hT => ?_, fun hH => ?_, fun hS => ?_⟩
  · have hne : tok.type ≠ .SECURID := by rw [hT]; intro hc; cases hc
    have heq : tok.time_left now se (some t) =
        .ok (some (if (tok.period - t.fmod 60).fmod tok.period = 0 then tok.period
          else (tok.period - t.fmod 60).fmod tok.period)) := by
      simp [Token.time_left, hne, hT, hrange, hpz]
    refine ⟨heq, ?_, fun hdvd hbd => ?_⟩
    · rw [heq]
      intro hc
      rw [Except.ok.injEq, Option.some.injEq] at hc
      by_cases h0 : (tok.period - t.fmod 60).fmod tok.period = 0
      · rw [if_pos h0] at hc; omega
      · rw [if_neg h0] at hc; exact h0 hc
    · rw [heq]
      have h60 : t.fmod 60 = t % 60 := Int.fmod_eq_emod t (by omega)
      have hpm : t.fmod tok.period = t % tok.period :=
        Int.fmod_eq_emod t (by omega)
      have hsp : t.fmod 60 % tok.period = 0 := by
        rw [h60, Int.emod_emod_of_dvd t hdvd]
        omega
      have hz : (tok.period - t.fmod 60).fmod tok.period = 0 := by
        rw [Int.fmod_eq_emod _ (by omega), Int.sub_emod, Int.emod_self, hsp]
        simp
      rw [if_pos hz]
  · have hne : tok.type ≠ .SECURID := by rw [hH]; intro hc; cases hc
    have hne2 : tok.type ≠ .TOTP := by rw [hH]; intro hc; cases hc
    simp [Token.time_left, hne, hne2]
  · simp [Token.time_left, hS]

/-- C4 witness. -/
theorem time_left_behaviour_witness :
    ({ type := .TOTP, period := 45 } : Token).time_left 0 none (some 59) = .ok (some 31) := by
  have h := time_left_behaviour { type := .TOTP, period := 45 } 0 59 none
    (by decide) (by decide) (by decide)
  rw [(h.1 rfl).1]
  rfl

/-- C8 counterexample: the URI otpauth://totp/alice has a matching host but no
secret parameter, and parsing fails (the source calls replace on None) instead
of succeeding, so a matching host alone does not make parsing succeed. -/
theorem parse_uri_missing_secret_fails :
    Token.parse_uri "otpauth://totp/alice" = .error "AttributeError: NoneType has no replace" ∧
    tokenTypeFromName "totp" = some .TOTP := by
  refine ⟨rfl, rfl⟩

/-- C8 amended: for every URI whose components split, parsing fails with the
invalid-token-type error exactly when the host does not case-insensitively
match one of TOTP, HOTP, SecurID; when the host matches and the query carries
a well-formed secret while algorithm, counter, digest and period parameters
are absent, parsing succeeds with the documented defaults period=30,
digits=6, algorithm=SHA1, counter=0. -/
theorem parse_uri_invalid_type_and_defaults (u : String) (c : UrlParts)
    (hs : urlsplit u = .ok c) :
    (Token.parse_uri u = .error "Error parsing URI, invalid token type" ↔
      tokenTypeFromName c.netloc = none) ∧
    (∀ ty s sec, tokenTypeFromName c.netloc = some ty →
      dictGet (parse_qsl c.query) "algorithm" = none →
      dictGet (parse_qsl c.query) "counter" = none →
      dictGet (parse_qsl c.query) "digest" = none →
      dictGet (parse_qsl c.query) "period" = none →
      dictGet (parse_qsl c.query) "secret" = some s →
      Secret.from_base32 s = some sec →
      (Token.parse_uri u).map
          (fun tok => (tok.type, tok.algorithm, tok.digits, tok.period,
            tok.counter, tok.secret)) =
        .ok (ty, "SHA1", 6, 30, some 0, sec)) := by
  constructor
  · rw [Token.parse_uri, hs]
    cases hty : tokenTypeFromName c.netloc with
    | none => simp [Bind.bind, Except.bind, hty]
    | some ty =>
      simp only [Bind.bind, Except.bind, hty]
      constructor
      · intro hc
        exfalso
        revert hc
        repeat' split
        all_goals simp_all [pure, Except.pure]
      · intro hc
        cases hc
  · intro ty s sec hty halg hctr hdig hper hsec hb32
    rw [Token.parse_uri, hs]
    simp only [Bind.bind, Except.bind, hty, halg, hctr, hdig, hper, hsec, hb32,
      Option.isSome_none]
    rfl

/-- C8 witness. -/
theorem parse_uri_defaults_witness :
    (Token.parse_uri "otpauth://hotp/alice?secret=AEBAGBAF").map
        (fun tok => (tok.type, tok.algorithm, tok.digits, tok.period,
          tok.counter, tok.secret)) =
      .ok (.HOTP, "SHA1", 6, 30, some 0, [1, 2, 3, 4, 5]) :=
  (parse_uri_invalid_type_and_defaults "otpauth://hotp/alice?secret=AEBAGBAF"
    ⟨"otpauth", "hotp", "/alice", "secret=AEBAGBAF", ""⟩ rfl).2
    .HOTP "AEBAGBAF" [1, 2, 3, 4, 5] rfl rfl rfl rfl rfl rfl rfl

/-! ### Helper lemmas for the codec round trips -/

theorem digits32BE_length (k n : Nat) : (digits32BE k n).length = k := by
  induction k generalizing n with
  | zero => rfl
  | succ k ih => simp [digits32BE, ih]

theorem bytesBE_length (k n : Nat) : (bytesBE k n).length = k := by
  induction k generalizing n with
  | zero => rfl
  | succ k ih => simp [bytesBE, ih]

theorem foldl32_shift (l : List Nat) (acc : Nat) :
    l.foldl (fun a d => a * 32 + d) acc =
      acc * 32 ^ l.length + l.foldl (fun a d => a * 32 + d) 0 := by
  induction l generalizing acc with
  | nil => simp
  | cons x t ih =>
    simp only [List.foldl_cons, List.length_cons]
    rw [ih (acc * 32 + x), ih (0 * 32 + x)]
    ring

theorem foldl256_shift (l : List Nat) (acc : Nat) :
    l.foldl (fun a b => a * 256 + b) acc =
      acc * 256 ^ l.length + l.foldl (fun a b => a * 256 + b) 0 := by
  induction l generalizing acc with
  | nil => simp
  | cons x t ih =>
    simp only [List.foldl_cons, List.length_cons]
    rw [ih (acc * 256 + x), ih (0 * 256 + x)]
    ring

theorem fromDigits32_append (a b : List Nat) :
    fromDigits32 (a ++ b) = fromDigits32 a * 32 ^ b.length + fromDigits32 b := by
  unfold fromDigits32
  rw [List.foldl_append, foldl32_shift]

theorem fromDigits32_digits32BE (k n : Nat) :
    fromDigits32 (digits32BE k n) = n % 32 ^ k := by
  induction k generalizing n with
  | zero => simp [digits32BE, fromDigits32, Nat.mod_one]
  | succ k ih =>
    rw [digits32BE, fromDigits32_append, ih (n / 32)]
    have hx : fromDigits32 [n % 32] = n % 32 := by simp [fromDigits32]
    rw [hx]
    have h1 : n % 32 ^ (k + 1) / 32 = n / 32 % 32 ^ k := by
      rw [Nat.pow_succ', Nat.mod_mul_right_div_self]
    have h2 : n % 32 ^ (k + 1) % 32 = n % 32 :=
      Nat.mod_mod_of_dvd n (dvd_pow_self 32 (Nat.succ_ne_zero k))
    have h3 := Nat.div_add_mod (n % 32 ^ (k + 1)) 32
    simp only [List.length_singleton, pow_one]
    omega

theorem fromDigits32_replicate_zero (z : Nat) :
    fromDigits32 (List.replicate z 0) = 0 := by
  induction z with
  | zero => rfl
  | succ z ih => simpa [fromDigits32, List.replicate_succ] using ih

theorem digits32BE_zero (m : Nat) : digits32BE m 0 = List.replicate m 0 := by
  induction m with
  | zero => rfl
  | succ m ih =>
    rw [digits32BE, Nat.zero_div, ih, Nat.zero_mod, ← List.replicate_succ']

theorem digits32BE_mod (m n : Nat) : digits32BE m (n % 32 ^ m) = digits32BE m n := by
  induction m generalizing n with
  | zero => rfl
  | succ m ih =>
    rw [digits32BE, digits32BE]
    have h1 : n % 32 ^ (m + 1) / 32 = n / 32 % 32 ^ m := by
      rw [Nat.pow_succ', Nat.mod_mul_right_div_self]
    have h2 : n % 32 ^ (m + 1) % 32 = n % 32 :=
      Nat.mod_mod_of_dvd n (dvd_pow_self 32 (Nat.succ_ne_zero m))
    rw [h1, h2, ← ih (n / 32)]

theorem digits32BE_split (j m n : Nat) :
    digits32BE (j + m) n = digits32BE j (n / 32 ^ m) ++ digits32BE m n := by
  induction m generalizing n with
  | zero => simp [digits32BE]
  | succ m ih =>
    rw [show j + (m + 1) = (j + m) + 1 from rfl, digits32BE, ih (n / 32),
      Nat.div_div_eq_div_mul, ← Nat.pow_succ', digits32BE, List.append_assoc]

theorem digits32BE_lt (k n : Nat) : ∀ d ∈ digits32BE k n, d < 32 := by
  induction k generalizing n with
  | zero => intro d hd; cases hd
  | succ k ih =>
    intro d hd
    rw [digits32BE, List.mem_append] at hd
    rcases hd with h | h
    · exact ih _ d h
    · simp only [List.mem_singleton] at h
      subst h
      exact Nat.mod_lt _ (by omega)

theorem foldl256_replicate_zero (z acc : Nat) :
    (List.replicate z 0).foldl (fun a b => a * 256 + b) acc = acc * 256 ^ z := by
  induction z generalizing acc with
  | zero => simp
  | succ z ih =>
    rw [List.replicate_succ, List.foldl_cons, ih]
    ring

theorem fromBytesBE_append_zeros (g : List Nat) (z : Nat) :
    fromBytesBE (g ++ List.replicate z 0) = fromBytesBE g * 256 ^ z := by
  unfold fromBytesBE
  rw [List.foldl_append, foldl256_replicate_zero]

theorem fromBytesBE_lt (l : List Nat) (h : ∀ x ∈ l, x < 256) :
    fromBytesBE l < 256 ^ l.length := by
  have aux : ∀ (t : List Nat) (acc : Nat), (∀ x ∈ t, x < 256) →
      t.foldl (fun a b => a * 256 + b) acc < (acc + 1) * 256 ^ t.length := by
    intro t
    induction t with
    | nil => intro acc _; simpa using Nat.lt_succ_self acc
    | cons x r ih =>
      intro acc ht
      rw [List.foldl_cons, List.length_cons]
      calc r.foldl (fun a b => a * 256 + b) (acc * 256 + x)
          < (acc * 256 + x + 1) * 256 ^ r.length :=
            ih _ (fun y hy => ht y (by simp [hy]))
        _ ≤ ((acc + 1) * 256) * 256 ^ r.length := by
            have hx : x < 256 := ht x (by simp)
            have : acc * 256 + x + 1 ≤ (acc + 1) * 256 := by nlinarith
            exact Nat.mul_le_mul_right _ this
        _ = (acc + 1) * 256 ^ (r.length + 1) := by ring
  simpa using aux l 0 h

theorem bytesBE_fromBytesBE (l : List Nat) (h : ∀ x ∈ l, x < 256) :
    bytesBE l.length (fromBytesBE l) = l := by
  induction l using List.reverseRecOn with
  | nil => rfl
  | append_singleton t x ih =>
    have hx : x < 256 := h x (by simp)
    have ht : ∀ y ∈ t, y < 256 := fun y hy => h y (by simp [hy])
    have hf : fromBytesBE (t ++ [x]) = fromBytesBE t * 256 + x := by
      unfold fromBytesBE
      rw [List.foldl_append]
      rfl
    have hlen : (t ++ [x]).length = t.length + 1 := by simp
    rw [hf, hlen, bytesBE]
    have hdiv : (fromBytesBE t * 256 + x) / 256 = fromBytesBE t := by omega
    have hmod : (fromBytesBE t * 256 + x) % 256 = x := by omega
    rw [hdiv, hmod, ih ht]

theorem b32val_b32char : ∀ d, d < 32 → b32val (b32char d) = some d := by decide

theorem b32char_ne_pad : ∀ d, d < 32 → b32char d ≠ '=' := by decide

theorem b32char_ne_space : ∀ d, d < 32 → b32char d ≠ ' ' := by decide

theorem b32char_toUpper : ∀ d, d < 32 → (b32char d).toUpper = b32char d := by decide

theorem mapM_b32val_map (ds : List Nat) (h : ∀ d ∈ ds, d < 32) :
    (ds.map b32char).mapM b32val = some ds := by
  induction ds with
  | nil => rfl
  | cons d t ih =>
    rw [List.map_cons, List.mapM_cons, b32val_b32char d (h d (by simp)),
      ih (fun x hx => h x (by simp [hx]))]
    rfl

theorem short_list_cases {α : Type} (g : List α) (h0 : g ≠ [])
    (h5 : ∀ (a b c d e : α) (rest : List α), g ≠ a :: b :: c :: d :: e :: rest) :
    (∃ a, g = [a]) ∨ (∃ a b, g = [a, b]) ∨ (∃ a b c, g = [a, b, c]) ∨
      (∃ a b c d, g = [a, b, c, d]) := by
  match g with
  | [] => exact absurd rfl h0
  | [a] => exact Or.inl ⟨a, rfl⟩
  | [a, b] => exact Or.inr (Or.inl ⟨a, b, rfl⟩)
  | [a, b, c] => exact Or.inr (Or.inr (Or.inl ⟨a, b, c, rfl⟩))
  | [a, b, c, d] => exact Or.inr (Or.inr (Or.inr ⟨a, b, c, d, rfl⟩))
  | a :: b :: c :: d :: e :: rest => exact absurd rfl (h5 a b c d e rest)

theorem b32encode_eq (s : List Nat) :
    b32encode s = b32data s ++ List.replicate (b32padcount s) '=' := by
  induction s using b32data.induct with
  | case1 => rfl
  | case2 b0 b1 b2 b3 b4 rest ih =>
    simp only [b32encode, b32data, b32padcount, ih, List.append_assoc]
  | case3 g h0 h5 =>
    rcases short_list_cases g h0 h5 with ⟨a, rfl⟩ | ⟨a, b, rfl⟩ | ⟨a, b, c, rfl⟩ |
      ⟨a, b, c, d, rfl⟩ <;> rfl

theorem b32data_short (g : List Nat) (h0 : g ≠ [])
    (h5 : ∀ (a b c d e : Nat) (rest : List Nat), g ≠ a :: b :: c :: d :: e :: rest) :
    b32data g = ((digits32BE 8 (fromBytesBE (g ++ List.replicate (5 - g.length) 0))).take
      (b32dataChars g.length)).map b32char := by
  rcases short_list_cases g h0 h5 with ⟨a, rfl⟩ | ⟨a, b, rfl⟩ | ⟨a, b, c, rfl⟩ |
    ⟨a, b, c, d, rfl⟩ <;> rfl

theorem b32digits_short (g : List Nat) (h0 : g ≠ [])
    (h5 : ∀ (a b c d e : Nat) (rest : List Nat), g ≠ a :: b :: c :: d :: e :: rest) :
    b32digits g = (digits32BE 8 (fromBytesBE (g ++ List.replicate (5 - g.length) 0))).take
      (b32dataChars g.length) := by
  rcases short_list_cases g h0 h5 with ⟨a, rfl⟩ | ⟨a, b, rfl⟩ | ⟨a, b, c, rfl⟩ |
    ⟨a, b, c, d, rfl⟩ <;> rfl

theorem b32padcount_short (g : List Nat) (h0 : g ≠ [])
    (h5 : ∀ (a b c d e : Nat) (rest : List Nat), g ≠ a :: b :: c :: d :: e :: rest) :
    b32padcount g = 8 - b32dataChars g.length := by
  rcases short_list_cases g h0 h5 with ⟨a, rfl⟩ | ⟨a, b, rfl⟩ | ⟨a, b, c, rfl⟩ |
    ⟨a, b, c, d, rfl⟩ <;> rfl

theorem short_list_length (g : List Nat) (h0 : g ≠ [])
    (h5 : ∀ (a b c d e : Nat) (rest : List Nat), g ≠ a :: b :: c :: d :: e :: rest) :
    1 ≤ g.length ∧ g.length ≤ 4 := by
  rcases short_list_cases g h0 h5 with ⟨a, rfl⟩ | ⟨a, b, rfl⟩ | ⟨a, b, c, rfl⟩ |
    ⟨a, b, c, d, rfl⟩ <;> simp

theorem b32data_chars (s : List Nat) :
    ∀ c ∈ b32data s, ∃ d, d < 32 ∧ c = b32char d := by
  induction s using b32data.induct with
  | case1 => intro c hc; cases hc
  | case2 b0 b1 b2 b3 b4 rest ih =>
    intro c hc
    simp only [b32data, List.mem_append] at hc
    rcases hc with hc | hc
    · rw [List.mem_map] at hc
      obtain ⟨d, hd, rfl⟩ := hc
      exact ⟨d, digits32BE_lt _ _ d hd, rfl⟩
    · exact ih c hc
  | case3 g h0 h5 =>
    intro c hc
    rw [b32data_short g h0 h5, List.mem_map] at hc
    obtain ⟨d, hd, rfl⟩ := hc
    exact ⟨d, digits32BE_lt _ _ d (List.mem_of_mem_take hd), rfl⟩

theorem b32digits_lt (s : List Nat) : ∀ d ∈ b32digits s, d < 32 := by
  induction s using b32data.induct with
  | case1 => intro d hd; cases hd
  | case2 b0 b1 b2 b3 b4 rest ih =>
    intro d hd
    simp only [b32digits, List.mem_append] at hd
    rcases hd with hd | hd
    · exact digits32BE_lt _ _ d hd
    · exact ih d hd
  | case3 g h0 h5 =>
    intro d hd
    rw [b32digits_short g h0 h5] at hd
    exact digits32BE_lt _ _ d (List.mem_of_mem_take hd)

theorem b32digits_length_pos (s : List Nat) (h : s ≠ []) :
    0 < (b32digits s).length := by
  induction s using b32data.induct with
  | case1 => exact absurd rfl h
  | case2 b0 b1 b2 b3 b4 rest ih =>
    simp [b32digits, digits32BE_length]
  | case3 g h0 h5 =>
    rw [b32digits_short g h0 h5]
    have h14 := short_list_length g h0 h5
    have hj : 2 ≤ b32dataChars g.length := by
      rcases short_list_cases g h0 h5 with ⟨a, rfl⟩ | ⟨a, b, rfl⟩ | ⟨a, b, c, rfl⟩ |
        ⟨a, b, c, d, rfl⟩ <;> simp [b32dataChars]
    simp only [List.length_take, digits32BE_length]
    omega

theorem b32decodeChunks_cons8 (ds rest : List Nat) (p f : Nat) (h8 : ds.length = 8) :
    (rest ≠ [] → b32decodeChunks (f + 1) (ds ++ rest) p =
      bytesBE 5 (fromDigits32 ds) ++ b32decodeChunks f rest p) ∧
    b32decodeChunks (f + 1) ds p = bytesBE 5 (fromDigits32 ds) := by
  obtain ⟨d0, t, rfl⟩ := List.exists_of_length_succ ds h8
  rw [List.length_cons] at h8
  obtain ⟨d1, t, rfl⟩ := List.exists_of_length_succ t (show t.length = 6 + 1 by omega)
  rw [List.length_cons] at h8
  obtain ⟨d2, t, rfl⟩ := List.exists_of_length_succ t (show t.length = 5 + 1 by omega)
  rw [List.length_cons] at h8
  obtain ⟨d3, t, rfl⟩ := List.exists_of_length_succ t (show t.length = 4 + 1 by omega)
  rw [List.length_cons] at h8
  obtain ⟨d4, t, rfl⟩ := List.exists_of_length_succ t (show t.length = 3 + 1 by omega)
  rw [List.length_cons] at h8
  obtain ⟨d5, t, rfl⟩ := List.exists_of_length_succ t (show t.length = 2 + 1 by omega)
  rw [List.length_cons] at h8
  obtain ⟨d6, t, rfl⟩ := List.exists_of_length_succ t (show t.length = 1 + 1 by omega)
  rw [List.length_cons] at h8
  obtain ⟨d7, t, rfl⟩ := List.exists_of_length_succ t (show t.length = 0 + 1 by omega)
  rw [List.length_cons] at h8
  obtain rfl : t = [] := by
    have : t.length = 0 := by omega
    exact List.length_eq_zero.mp this
  constructor
  · intro hrest
    have hlen : 8 < ([d0, d1, d2, d3, d4, d5, d6, d7] ++ rest).length := by
      have := List.length_pos.mpr hrest
      simp
      omega
    simp only [b32decodeChunks, List.cons_append, List.nil_append]
    rw [if_pos (by simpa using hlen)]
    rfl
  · simp only [b32decodeChunks]
    rw [if_neg (by simp), if_pos (by simp)]

theorem b32decodeChunks_lt8 (ds : List Nat) (p f : Nat) (h0 : ds ≠ [])
    (hlt : ds.length < 8) :
    b32decodeChunks (f + 1) ds p =
      (bytesBE 5 (fromDigits32 ds * 2 ^ (5 * p))).take ((43 - 5 * p) / 8) := by
  cases ds with
  | nil => exact absurd rfl h0
  | cons d t =>
    simp only [b32decodeChunks]
    rw [if_neg (by omega), if_neg (by omega)]

theorem b32chunks_short (g : List Nat) (hb : ∀ x ∈ g, x < 256)
    (h1 : 1 ≤ g.length) (h4 : g.length ≤ 4) (f : Nat) :
    b32decodeChunks (f + 1)
      ((digits32BE 8 (fromBytesBE (g ++ List.replicate (5 - g.length) 0))).take
        (b32dataChars g.length))
      (8 - b32dataChars g.length) = g := by
  have hlen4 : g.length = 1 ∨ g.length = 2 ∨ g.length = 3 ∨ g.length = 4 := by omega
  have hjfacts : b32dataChars g.length + (8 - b32dataChars g.length) = 8 ∧
      2 ≤ b32dataChars g.length ∧ b32dataChars g.length ≤ 7 ∧
      5 * (8 - b32dataChars g.length) ≤ 8 * (5 - g.length) ∧
      (43 - 5 * (8 - b32dataChars g.length)) / 8 = g.length := by
    rcases hlen4 with hm | hm | hm | hm <;> rw [hm] <;> decide
  obtain ⟨hj8, hj2, hj7, hje, hjl⟩ := hjfacts
  set j := b32dataChars g.length with hjdef
  set N := fromBytesBE (g ++ List.replicate (5 - g.length) 0) with hNdef
  have hglen : (g ++ List.replicate (5 - g.length) 0).length = 5 := by
    simp
    omega
  have hball : ∀ x ∈ g ++ List.replicate (5 - g.length) 0, x < 256 := by
    intro x hx
    rcases List.mem_append.mp hx with hx | hx
    · exact hb x hx
    · rw [List.eq_of_mem_replicate hx]
      omega
  have hNlt : N < 32 ^ 8 := by
    have h5 := fromBytesBE_lt _ hball
    rw [hglen] at h5
    calc N < 256 ^ 5 := h5
      _ = 32 ^ 8 := by norm_num
  have hdvd : 32 ^ (8 - j) ∣ N := by
    rw [hNdef, fromBytesBE_append_zeros]
    refine Dvd.dvd.mul_left ?_ (fromBytesBE g)
    rw [show (32 : Nat) = 2 ^ 5 by norm_num, show (256 : Nat) = 2 ^ 8 by norm_num,
      ← Nat.pow_mul, ← Nat.pow_mul]
    exact pow_dvd_pow 2 hje
  have hsplit : digits32BE 8 N =
      digits32BE j (N / 32 ^ (8 - j)) ++ List.replicate (8 - j) 0 := by
    conv_lhs => rw [← hj8]
    rw [digits32BE_split]
    congr 1
    rw [← digits32BE_mod (8 - j) N, Nat.dvd_iff_mod_eq_zero.mp hdvd,
      digits32BE_zero]
  have htake : (digits32BE 8 N).take j = digits32BE j (N / 32 ^ (8 - j)) := by
    rw [hsplit, List.take_append_of_le_length (by rw [digits32BE_length]),
      List.take_of_length_le (by rw [digits32BE_length])]
  rw [htake]
  rw [b32decodeChunks_lt8 _ _ f (by
      have := digits32BE_length j (N / 32 ^ (8 - j))
      intro hc
      rw [hc] at this
      simp at this
      omega)
    (by rw [digits32BE_length]; omega)]
  rw [fromDigits32_digits32BE]
  have hdivlt : N / 32 ^ (8 - j) < 32 ^ j := by
    rw [Nat.div_lt_iff_lt_mul (Nat.pos_pow_of_pos _ (by norm_num))]
    calc N < 32 ^ 8 := hNlt
      _ = 32 ^ j * 32 ^ (8 - j) := by rw [← pow_add, hj8]
  rw [Nat.mod_eq_of_lt hdivlt]
  have hpow : (2 : Nat) ^ (5 * (8 - j)) = 32 ^ (8 - j) := by
    rw [show (32 : Nat) = 2 ^ 5 by norm_num, ← Nat.pow_mul]
  rw [hpow, Nat.div_mul_cancel hdvd]
  have hbytes : bytesBE 5 N = g ++ List.replicate (5 - g.length) 0 := by
    have hby := bytesBE_fromBytesBE _ hball
    rw [hglen] at hby
    exact hby
  rw [hjl, hbytes, List.take_append_of_le_length (Nat.le_refl _), List.take_length]

theorem b32decodeChunks_b32digits : ∀ s : List Nat, (∀ x ∈ s, x < 256) →
    ∀ fuel, (b32digits s).length ≤ fuel →
      b32decodeChunks fuel (b32digits s) (b32padcount s) = s := by
  intro s
  induction s using b32data.induct with
  | case1 =>
    intro _ fuel _
    cases fuel <;> rfl
  | case2 b0 b1 b2 b3 b4 rest ih =>
    intro hb fuel hfuel
    have hb5 : ∀ x ∈ [b0, b1, b2, b3, b4], x < 256 := by
      intro x hx
      apply hb
      simp only [List.mem_cons, List.mem_singleton] at hx
      simp only [List.mem_cons]
      tauto
    have hbrest : ∀ x ∈ rest, x < 256 := fun x hx => hb x (by simp [hx])
    have hlen8 := digits32BE_length 8 (fromBytesBE [b0, b1, b2, b3, b4])
    have hlen : (b32digits (b0 :: b1 :: b2 :: b3 :: b4 :: rest)).length =
        8 + (b32digits rest).length := by
      simp only [b32digits, List.length_append, hlen8]
    obtain ⟨f, rfl⟩ : ∃ f, fuel = f + 1 := ⟨fuel - 1, by omega⟩
    have hN : fromBytesBE [b0, b1, b2, b3, b4] % 32 ^ 8 =
        fromBytesBE [b0, b1, b2, b3, b4] := by
      apply Nat.mod_eq_of_lt
      have hlt := fromBytesBE_lt _ hb5
      exact lt_of_lt_of_eq hlt (by norm_num)
    have hbytes : bytesBE 5 (fromBytesBE [b0, b1, b2, b3, b4]) = [b0, b1, b2, b3, b4] := by
      have hby := bytesBE_fromBytesBE _ hb5
      simpa using hby
    rcases eq_or_ne rest [] with rfl | hrest
    · simp only [b32digits, List.append_nil, b32padcount]
      rw [(b32decodeChunks_cons8 _ [] _ f hlen8).2, fromDigits32_digits32BE, hN, hbytes]
    · have hpos := b32digits_length_pos rest hrest
      simp only [b32digits, b32padcount]
      rw [(b32decodeChunks_cons8 _ _ _ f hlen8).1
          (by intro hc; rw [hc] at hpos; simp at hpos),
        fromDigits32_digits32BE, hN, hbytes]
      have hrec := ih hbrest f (by omega)
      simp only [List.cons_append, List.nil_append, hrec]
  | case3 g h0 h5 =>
    intro hb fuel hfuel
    have h14 := short_list_length g h0 h5
    have hj : 2 ≤ b32dataChars g.length ∧ b32dataChars g.length ≤ 7 := by
      have hlen4 : g.length = 1 ∨ g.length = 2 ∨ g.length = 3 ∨ g.length = 4 := by omega
      rcases hlen4 with hm | hm | hm | hm <;> rw [hm] <;> decide
    rw [b32digits_short g h0 h5] at hfuel ⊢
    rw [b32padcount_short g h0 h5]
    rw [List.length_take, digits32BE_length] at hfuel
    obtain ⟨f, rfl⟩ : ∃ f, fuel = f + 1 := ⟨fuel - 1, by omega⟩
    exact b32chunks_short g hb h14.1 h14.2 f

theorem dropWhile_pad_eq_self (l : List Char) (h : ∀ c ∈ l, c ≠ '=') :
    l.dropWhile (· = '=') = l := by
  cases l with
  | nil => rfl
  | cons c t =>
    have hc := h c (by simp)
    simp [List.dropWhile_cons, hc]

theorem rstrip_data_pad (a : List Char) (p : Nat) (h : ∀ c ∈ a, c ≠ '=') :
    ((a ++ List.replicate p '=').reverse.dropWhile (· = '=')).reverse = a := by
  rw [List.reverse_append, List.reverse_replicate,
    List.dropWhile_append_of_pos
      (by intro c hc; rw [List.eq_of_mem_replicate hc]; simp),
    dropWhile_pad_eq_self _ (by intro c hc; exact h c (List.mem_reverse.mp hc)),
    List.reverse_reverse]

theorem b32data_ne_pad (s : List Nat) : ∀ c ∈ b32data s, c ≠ '=' := by
  intro c hc
  obtain ⟨d, hd, rfl⟩ := b32data_chars s c hc
  exact b32char_ne_pad d hd

theorem b32data_length_add (s : List Nat) :
    (b32encode s).length = (b32data s).length + b32padcount s := by
  rw [b32encode_eq]
  simp

theorem b32padcount_valid (s : List Nat) :
    b32padcount s = 0 ∨ b32padcount s = 1 ∨ b32padcount s = 3 ∨
      b32padcount s = 4 ∨ b32padcount s = 6 := by
  induction s using b32data.induct with
  | case1 => exact Or.inl rfl
  | case2 b0 b1 b2 b3 b4 rest ih => simpa only [b32padcount] using ih
  | case3 g h0 h5 =>
    rw [b32padcount_short g h0 h5]
    have h14 := short_list_length g h0 h5
    have hlen4 : g.length = 1 ∨ g.length = 2 ∨ g.length = 3 ∨ g.length = 4 := by omega
    rcases hlen4 with hm | hm | hm | hm <;> rw [hm] <;> decide

theorem b32encode_length_mod (s : List Nat) : (b32encode s).length % 8 = 0 := by
  induction s using b32data.induct with
  | case1 => rfl
  | case2 b0 b1 b2 b3 b4 rest ih =>
    simp only [b32encode, List.length_append, List.length_map, digits32BE_length]
    omega
  | case3 g h0 h5 =>
    rcases short_list_cases g h0 h5 with ⟨a, rfl⟩ | ⟨a, b, rfl⟩ | ⟨a, b, c, rfl⟩ |
      ⟨a, b, c, d, rfl⟩ <;>
      simp [b32encode, b32dataChars, List.length_take, digits32BE_length]

theorem b32data_mapM (s : List Nat) : (b32data s).mapM b32val = some (b32digits s) := by
  induction s using b32data.induct with
  | case1 => rfl
  | case2 b0 b1 b2 b3 b4 rest ih =>
    simp only [b32data, b32digits]
    rw [List.mapM_append, mapM_b32val_map _ (digits32BE_lt _ _), ih]
    rfl
  | case3 g h0 h5 =>
    rw [b32data_short g h0 h5, b32digits_short g h0 h5]
    exact mapM_b32val_map _ (fun d hd => digits32BE_lt _ _ d (List.mem_of_mem_take hd))

theorem b32decode_b32encode (s : List Nat) (hb : ∀ x ∈ s, x < 256) :
    b32decode (b32encode s) = some s := by
  have hstrip : ((b32encode s).reverse.dropWhile (· = '=')).reverse = b32data s := by
    rw [b32encode_eq]
    exact rstrip_data_pad _ _ (b32data_ne_pad s)
  have hpad : (b32encode s).length - (b32data s).length = b32padcount s := by
    rw [b32data_length_add]
    omega
  simp only [b32decode, b32encode_length_mod, hstrip, hpad, b32data_mapM s, ne_eq,
    not_true_eq_false, not_false_eq_true, if_false, ite_false, ite_true]
  rw [if_neg (not_not_intro (b32padcount_valid s))]
  exact congrArg some (b32decodeChunks_b32digits s hb _ (Nat.le_refl _))

theorem toList_mk (l : List Char) : (String.mk l).toList = l := rfl

theorem b32encode_chars (s : List Nat) :
    ∀ c ∈ b32encode s, (∃ d, d < 32 ∧ c = b32char d) ∨ c = '=' := by
  intro c hc
  rw [b32encode_eq] at hc
  rcases List.mem_append.mp hc with hc | hc
  · exact Or.inl (b32data_chars s c hc)
  · exact Or.inr (List.eq_of_mem_replicate hc)

theorem from_base32_to_base32 (s : List Nat) (hb : ∀ x ∈ s, x < 256) :
    Secret.from_base32 (Secret.to_base32 s) = some s := by
  have hfilter : (b32encode s).filter (· ≠ ' ') = b32encode s := by
    rw [List.filter_eq_self]
    intro c hc
    rcases b32encode_chars s c hc with ⟨d, hd, rfl⟩ | rfl
    · simpa using b32char_ne_space d hd
    · simp
  have hupper : (b32encode s).map Char.toUpper = b32encode s := by
    have hself : ∀ c ∈ b32encode s, Char.toUpper c = c := by
      intro c hc
      rcases b32encode_chars s c hc with ⟨d, hd, rfl⟩ | rfl
      · exact b32char_toUpper d hd
      · decide
    calc (b32encode s).map Char.toUpper = (b32encode s).map id :=
          List.map_congr_left hself
      _ = b32encode s := List.map_id _
  simp only [Secret.from_base32, Secret.to_base32, toList_mk, pyUpper, hfilter,
    hupper, b32encode_length_mod, if_pos]
  exact b32decode_b32encode s hb

theorem hexVal_hexChar : ∀ d, d < 16 → hexVal (hexChar d) = some d := by decide

theorem hexChar_ne_space : ∀ d, d < 16 → hexChar d ≠ ' ' := by decide

theorem from_hex_to_hex : ∀ s : List Nat, (∀ b ∈ s, b < 256) →
    Secret.from_hex (Secret.to_hex s) = some s := by
  intro s
  induction s with
  | nil => intro _; rfl
  | cons b t ih =>
    intro hb
    have iht := ih (fun x hx => hb x (by simp [hx]))
    have hb1 : b / 16 < 16 := by
      have := hb b (by simp)
      omega
    have hb2 : b % 16 < 16 := by omega
    simp only [Secret.from_hex, Secret.to_hex, toList_mk] at iht ⊢
    rw [List.flatMap_cons]
    show pyFromHex (hexChar (b / 16) :: hexChar (b % 16) :: _) = _
    rw [pyFromHex, if_neg (hexChar_ne_space _ hb1), hexVal_hexChar _ hb1,
      hexVal_hexChar _ hb2]
    have hre : b / 16 * 16 + b % 16 = b := by omega
    simp [iht, hre]

theorem from_int_list_to_int_list : ∀ s : List Nat, (∀ b ∈ s, b < 256) →
    Secret.from_int_list (Secret.to_int_list s) = s := by
  intro s
  induction s with
  | nil => intro _; rfl
  | cons b t ih =>
    intro hb
    have hbb := hb b (by simp)
    have iht := ih (fun x hx => hb x (by simp [hx]))
    simp only [Secret.from_int_list, Secret.to_int_list, List.map_cons] at iht ⊢
    have h1 : ((Int.ofNat b + 256) % 256).toNat = b := by
      simp only [Int.ofNat_eq_coe]
      omega
    rw [h1, iht]

/-- C6: for every byte sequence, the Secret encodings round-trip losslessly
through hex, Base32 and the integer list, byte for byte. -/
theorem secret_encoding_round_trips (s : List Nat) (hb : ∀ b ∈ s, b < 256) :
    Secret.from_hex (Secret.to_hex s) = some s ∧
    Secret.from_base32 (Secret.to_base32 s) = some s ∧
    Secret.from_int_list (Secret.to_int_list s) = s :=
  ⟨from_hex_to_hex s hb, from_base32_to_base32 s hb, from_int_list_to_int_list s hb⟩

/-- C6 witness. -/
theorem secret_encoding_round_trips_witness :
    Secret.from_hex (Secret.to_hex [0, 255, 7, 32]) = some [0, 255, 7, 32] ∧
    Secret.from_base32 (Secret.to_base32 [0, 255, 7, 32]) = some [0, 255, 7, 32] ∧
    Secret.from_int_list (Secret.to_int_list [0, 255, 7, 32]) = [0, 255, 7, 32] :=
  secret_encoding_round_trips [0, 255, 7, 32] (by decide)

end FreakOTP
